import Mathlib

/-!
Verification development for the puncc conformal-prediction core.

The Python source is embedded shallowly over exact rationals:
1-D numpy arrays become `List ℚ`, fallible calls return `Except String`,
and numpy float tolerances are carried over as exact rational constants.
Sections follow the source files:
  * `src/puncc/utils.py` - weighted empirical quantile;
  * `src/deel/puncc/conformalization.py` - ConformalPredictor and
    CrossValCpAggregator;
  * `src/deel/puncc/regression.py` - EnbPI bootstrap ensemble.
Parts of the repository that the source imports but that are absent from
`src/` (CvPlusCalibrator, the nonconformity-score and prediction-set
helpers) are modelled from the spec and marked as such.
-/

namespace Puncc

/-- Returns `true` when an `Except` value is a normal result, `false` on a
raised error. -/
def exceptOk {ε α : Type} : Except ε α → Bool
  | .ok _ => true
  | .error _ => false

/-! ## src/puncc/utils.py : the weighted empirical quantile -/

/-- Running prefix sums starting from `acc`, the recursion behind `np.cumsum`. -/
def cumsumFrom (acc : ℚ) : List ℚ → List ℚ
  | [] => []
  | x :: xs => (acc + x) :: cumsumFrom (acc + x) xs

/-- `np.cumsum` on a 1-D array: `cumsum [w0, w1, ...] = [w0, w0+w1, ...]`. -/
def cumsum (l : List ℚ) : List ℚ := cumsumFrom 0 l

/-- Index of the first element satisfying `p`, the embedding of
`indices[mask][0]` on a boolean numpy mask (`none` when the mask is all
false, in which case the source indexing raises an IndexError). -/
def firstSatisfying (p : ℚ → Bool) : List ℚ → Option ℕ
  | [] => none
  | c :: rest => if p c then some 0 else (firstSatisfying p rest).map (· + 1)

/-- `np.isclose(x, target, atol)` with the numpy default relative tolerance
kept: the test is `|x - target| ≤ atol + rtol * |target|` where numpy leaves
`rtol = 1e-5` in place when only `atol` is overridden. -/
def npIsClose (x target atol rtol : ℚ) : Bool :=
  decide (|x - target| ≤ atol + rtol * |target|)

/-- `np.quantile(a, q, method="higher")` on a 1-D array: sort ascending and
take the entry at index `⌈q * (n - 1)⌉`; numpy raises on an empty array. -/
def npQuantileHigher (a : List ℚ) (q : ℚ) : Except String ℚ :=
  match a with
  | [] => .error "ValueError: zero-size array in quantile"
  | _ :: _ =>
    let srt := List.insertionSort (· ≤ ·) a
    let idx := (⌈q * ((a.length : ℚ) - 1)⌉).toNat
    match srt[idx]? with
    | some v => .ok v
    | none => .error "IndexError: quantile index out of range"

/-- Embedding of `quantile` from `src/puncc/utils.py`.

The guard order follows the source: the `alpha` range check, the unweighted
`np.quantile(..., method="higher")` branch, the shape check, the
normalization check `np.isclose(np.sum(w), 1, atol=1e-6)` (numpy keeps its
default `rtol = 1e-5`, so the accepted envelope is `|sum - 1| ≤ 1.1e-5`),
then the weighted branch: `np.argsort(a)` is modelled as a stable ascending
sort of the `(a_i, w_i)` pairs by first component, the cumulative weights of
the sorted pairs are scanned, and the residual at the first sorted position
whose cumulative weight reaches `alpha` is returned
(`sorted_idxs[sorted_cumsum_w >= alpha][0]` raises an index error when the
mask is all false). The 1-D `ndim` guards of the source are implicit: the
embedding types `a` and `w` as 1-D lists. -/
def quantile (a : List ℚ) (alpha : ℚ) (w : Option (List ℚ)) : Except String ℚ :=
  if alpha ≤ 0 ∨ 1 ≤ alpha then
    .error "ValueError: Alpha must be in the open interval (0, 1)"
  else
    match w with
    | none => npQuantileHigher a alpha
    | some wv =>
      if wv.length ≠ a.length then
        .error "RuntimeError: M and W must have the same shape"
      else if ¬ npIsClose wv.sum 1 (1 / 1000000) (1 / 100000) then
        .error "RuntimeError: W is not normalized"
      else
        let srt := List.insertionSort (fun p q : ℚ × ℚ => p.1 ≤ q.1) (a.zip wv)
        let cums := cumsum (srt.map Prod.snd)
        match firstSatisfying (fun c => decide (alpha ≤ c)) cums with
        | some j => .ok ((srt.getD j (0, 0)).1)
        | none => .error "IndexError: cumulative weights never reach alpha"

instance : IsTotal (ℚ × ℚ) (fun p q : ℚ × ℚ => p.1 ≤ q.1) :=
  ⟨fun a b => le_total a.1 b.1⟩

instance : IsTrans (ℚ × ℚ) (fun p q : ℚ × ℚ => p.1 ≤ q.1) :=
  ⟨fun _ _ _ hab hbc => le_trans hab hbc⟩

/-! ## src/deel/puncc/conformalization.py -/

/-- Predictor contract consumed by the conformalization layer (spec section 6):
`predict` returns the quadruple `(y_pred, y_pred_lower, y_pred_upper, var_pred)`. -/
structure KFoldPredictor (X P : Type) where
  predict : X → P × P × P × P

/-- Calibrator contract consumed by the conformalization layer (spec section 6):
`calibrate` maps features, `alpha` and the predictor quadruple to the interval
bounds; a fitted calibrator stores its residuals and weights, surfaced by the
accessor methods of the aggregator. -/
structure KFoldCalibrator (X P L : Type) where
  calibrate : X → ℚ → P × P × P × P → L × L
  residuals : List ℚ
  weights : List ℚ

/-- CrossValCpAggregator state: fold-indexed predictors and calibrators,
modelled as association lists keyed by fold index (the python dicts have
distinct keys by construction, one per fold). -/
structure CrossValCpAggregator (X P L : Type) where
  K : ℕ
  method : String
  predictors : List (ℕ × KFoldPredictor X P)
  calibrators : List (ℕ × KFoldCalibrator X P L)

/-- Contiguous sublist test on character lists, the semantics of the python
`in` operator on strings. -/
def charSubstr (sub : List Char) : List Char → Bool
  | [] => sub.isEmpty
  | c :: rest => sub.isPrefixOf (c :: rest) || charSubstr sub rest

/-- Python `sub in s` substring membership on strings. -/
def pyInStr (sub s : String) : Bool := charSubstr sub.toList s.toList

/-- Embedding of `CrossValCpAggregator.__init__`. The source guard is
`if method not in ("cv+")`: the parenthesized expression is the plain string
"cv+" (the tuple comma is missing), so the test is substring membership of
`method` in "cv+"; and the guard body evaluates `NotImplemented(...)`, which
raises a TypeError because `NotImplemented` is not callable. The `method`
attribute is assigned only after the guard passes. -/
def crossValCpAggregatorInit (X P L : Type) (K : ℕ) (method : String) :
    Except String (CrossValCpAggregator X P L) :=
  if ¬ pyInStr method "cv+" then
    .error "TypeError: NotImplementedType object is not callable"
  else .ok ⟨K, method, [], []⟩

/-- A python return value that is either a normally returned exception object
or real data. `ConformalPredictor.get_residuals` and `get_weights` execute
`return RuntimeError(...)` (not `raise`), so their callers receive the
exception object as an ordinary value. -/
inductive PyVal (A : Type) where
  | runtimeErrorObj (msg : String) : PyVal A
  | val (a : A) : PyVal A

/-- ConformalPredictor state. The `splitter` template is an external callable
irrelevant to the accessors and the predict dispatch and is omitted;
`cvCpAgg` is the `_cv_cp_agg` attribute, `none` until `fit` runs. -/
structure ConformalPredictor (X P L : Type) where
  calibrator : KFoldCalibrator X P L
  predictor : KFoldPredictor X P
  method : String
  train : Bool
  cvCpAgg : Option (CrossValCpAggregator X P L)

/-- `CrossValCpAggregator.get_residuals`: the per-fold residual dictionary. -/
def CrossValCpAggregator.getResiduals {X P L : Type} (agg : CrossValCpAggregator X P L) :
    List (ℕ × List ℚ) :=
  agg.calibrators.map (fun kc => (kc.1, kc.2.residuals))

/-- `CrossValCpAggregator.get_weights`: the per-fold weight dictionary. -/
def CrossValCpAggregator.getWeights {X P L : Type} (agg : CrossValCpAggregator X P L) :
    List (ℕ × List ℚ) :=
  agg.calibrators.map (fun kc => (kc.1, kc.2.weights))

/-- `ConformalPredictor.get_residuals`. Before `fit`, the source RETURNS the
RuntimeError object (the message of the source reads: Error: call the fit
method first) instead of raising it, which the embedding renders as the
`runtimeErrorObj` value of a normal return. -/
def ConformalPredictor.getResiduals {X P L : Type} (cp : ConformalPredictor X P L) :
    PyVal (List (ℕ × List ℚ)) :=
  match cp.cvCpAgg with
  | none => .runtimeErrorObj "Error: call fit method first."
  | some agg => .val agg.getResiduals

/-- `ConformalPredictor.get_weights`, same return-instead-of-raise shape as
`get_residuals`. -/
def ConformalPredictor.getWeights {X P L : Type} (cp : ConformalPredictor X P L) :
    PyVal (List (ℕ × List ℚ)) :=
  match cp.cvCpAgg with
  | none => .runtimeErrorObj "Error: call fit method first."
  | some agg => .val agg.getWeights

/-- Equality of python dict key views (set semantics), used by the predict
assertion of the aggregator. -/
def keysEq (ks ls : List ℕ) : Bool :=
  ks.all (fun k => ls.contains k) && ls.all (fun k => ks.contains k)

/-- Embedding of `CrossValCpAggregator.predict`. `cvPlusCalibrate` abstracts
`CvPlusCalibrator(...).calibrate(...)`. Modelled from the spec: CvPlusCalibrator
lives in `deel/puncc/calibration.py`, which is not part of `src/`; the spec
describes it as pooling per-fold residuals against per-fold predictions to
produce one lower and one upper bound per query point, and only those output
bounds reach this dispatch layer, so the calibrator is kept abstract as a
function of the fold calibrators, the fold predictors, the query set and
`alpha`. The `K == 1` branch looks up the single fold and returns its
calibrated output; otherwise the cv+ branch returns `(None, lo, hi, None)`. -/
def CrossValCpAggregator.predict {X P L : Type}
    (cvPlusCalibrate : List (ℕ × KFoldCalibrator X P L) → List (ℕ × KFoldPredictor X P) → X → ℚ → L × L)
    (agg : CrossValCpAggregator X P L) (x : X) (alpha : ℚ) :
    Except String (Option P × L × L × Option P) :=
  if ¬ keysEq (agg.predictors.map Prod.fst) (agg.calibrators.map Prod.fst) then
    .error "AssertionError: K-fold predictors are not well calibrated."
  else
    match agg.predictors with
    | [(k, f)] =>
      match agg.calibrators.lookup k with
      | none => .error "KeyError"
      | some c =>
        let out := f.predict x
        let lohi := c.calibrate x alpha out
        .ok (some out.1, lohi.1, lohi.2, some out.2.2.2)
    | _ =>
      if agg.method = "cv+" then
        let lohi := cvPlusCalibrate agg.calibrators agg.predictors x alpha
        .ok (none, lohi.1, lohi.2, none)
      else .error "RuntimeError: Method is not implemented. Please choose cv+."

/-- Embedding of `ConformalPredictor.predict`: raises the call-fit-first
RuntimeError when `_cv_cp_agg` is still `None`, otherwise delegates. -/
def ConformalPredictor.predict {X P L : Type}
    (cvPlusCalibrate : List (ℕ × KFoldCalibrator X P L) → List (ℕ × KFoldPredictor X P) → X → ℚ → L × L)
    (cp : ConformalPredictor X P L) (x : X) (alpha : ℚ) :
    Except String (Option P × L × L × Option P) :=
  match cp.cvCpAgg with
  | none => .error "RuntimeError: Error: call fit method first."
  | some agg => CrossValCpAggregator.predict cvPlusCalibrate agg x alpha

/-- Concrete single-fold aggregator over trivial types, used to exercise the
dispatch theorem at a closed input. -/
def unitAggregator : CrossValCpAggregator Unit Unit Unit :=
  ⟨1, "cv+", [(0, ⟨fun _ => ((), (), (), ())⟩)], [(0, ⟨fun _ _ _ => ((), ()), [], []⟩)]⟩

/-- Concrete unfitted conformal predictor over trivial types. -/
def unitUnfittedCP : ConformalPredictor Unit Unit Unit :=
  ⟨⟨fun _ _ _ => ((), ()), [], []⟩, ⟨fun _ => ((), (), (), ())⟩, "cv+", true, none⟩

/-! ## src/deel/puncc/regression.py : EnbPI -/

/-- `np.setdiff1d(np.arange(T), boot)`: the indices of `range T` missing from
the bootstrap index list. -/
def oobUnits (T : ℕ) (boot : List ℕ) : List ℕ :=
  (List.range T).filter (fun i => ! boot.contains i)

/-- One row of the EnbPI OOB indicator matrix for training sample `i`: entry
`b` is 1 when `i` lies in the out-of-bag set of bootstrap model `b`, else 0. -/
def oobRow (B : ℕ) (oobDict : List (List ℕ)) (i : ℕ) : List ℚ :=
  (List.range B).map (fun b => if (oobDict.getD b []).contains i then (1 : ℚ) else 0)

/-- The OOB-matrix construction and row-normalization steps of `EnbPI.fit`,
as a function of the retained bootstrap index sets: build the `T × B`
indicator matrix, raise when some row is all zeros (a sample contained in
every bootstrap set), else divide every row by its sum. -/
def buildOobMatrix (T B : ℕ) (bootDict : List (List ℕ)) : Except String (List (List ℚ)) :=
  let oobDict := bootDict.map (oobUnits T)
  let rows := (List.range T).map (oobRow B oobDict)
  if rows.all (fun r => decide (r.sum ≠ 0)) then
    .ok (rows.map (fun r => r.map (fun x => x / r.sum)))
  else
    .error "RuntimeError: Training sample is included in all boostrap sets."

/-- The per-bootstrap resample retry loop of `EnbPI.fit`, fuel-indexed.
`draw k` is the index list returned by the k-th call to sklearn resample
inside the while loop for one bootstrap model `b`. In the source the seed
`random_state_b` is computed once, before the loop, so when a base
`random_state` is supplied every call is `resample(..., random_state=seed)`
and `draw` is a constant function; only with `random_state=None` do the calls
draw fresh randomness. The loop keeps resampling while the out-of-bag
complement is empty; `none` means the given fuel was exhausted without the
loop terminating. -/
def sampleOobLoop (T : ℕ) (draw : ℕ → List ℕ) : ℕ → ℕ → Option (List ℕ × List ℕ)
  | _, 0 => none
  | k, fuel + 1 =>
    let boot := draw k
    let oob := oobUnits T boot
    if oob.length = 0 then sampleOobLoop T draw (k + 1) fuel
    else some (boot, oob)

/-- Python slice `l[start:stop?]` (`stop? = none` is an open slice to the end). -/
def pySlice {α : Type} (l : List α) (start : ℕ) (stop? : Option ℕ) : List α :=
  match stop? with
  | none => l.drop start
  | some stop => (l.take stop).drop start

/-- The batch slicing decision of `EnbPI.predict`: when `y_true` is absent, or
present without `s`, there is a single batch covering the whole test set
(`n_batches = 1` and the effective `s` is `len(X_test)`); when both are given
there are `len(y_true) / s` batches, each batch `i` being the slice
`[i*s, (i+1)*s)` except the last, which is the open slice `[i*s:]`. The
result pairs the slice ranges with the effective batch size `s`. -/
def batchRanges (nTest : ℕ) (yLen : Option ℕ) (s? : Option ℕ) : List (ℕ × Option ℕ) × ℕ :=
  match yLen, s? with
  | none, _ => ([(0, none)], nTest)
  | some _, none => ([(0, none)], nTest)
  | some n, some s =>
    ((List.range (n / s)).map
      (fun i => if i = n / s - 1 then (i * s, none) else (i * s, some ((i + 1) * s))), s)

/-- The list of test-set batches `EnbPI.predict` processes. -/
def enbpiBatches (α β : Type) (Xtest : List α) (yTrue : Option (List β)) (s? : Option ℕ) :
    List (List α) :=
  ((batchRanges Xtest.length (yTrue.map List.length) s?).1).map (fun r => pySlice Xtest r.1 r.2)

/-- Modelled from the claim C8 wording, for comparison with the code: split
into `⌊len(y_true)/s⌋` fixed-size batches of size `s` plus a final remainder
batch holding the leftover `len(y_true) % s` samples. -/
def claimedBatchesC8 (α : Type) (Xtest : List α) (n s : ℕ) : List (List α) :=
  (List.range (n / s)).map (fun i => pySlice Xtest (i * s) (some ((i + 1) * s))) ++
    [Xtest.drop (n / s * s)]

/-- Modelled from the spec: `nonconformity_scores.mad` (the `deel/puncc/api`
modules are not part of `src/`) - the elementwise absolute residual between
true values and predictions. -/
def mad (yPred yTrue : List ℚ) : List ℚ := List.zipWith (fun p t => |t - p|) yPred yTrue

/-- Modelled from the spec: `prediction_sets.constant_interval` (not part of
`src/`) - the constant half-width interval `y_pred ± w`. -/
def constantInterval (yPred : List ℚ) (w : ℚ) : List ℚ × List ℚ :=
  (yPred.map (fun v => v - w), yPred.map (fun v => v + w))

/-- `np.quantile(a, q)` with the numpy default linear interpolation method:
with `h = q * (n - 1)`, interpolate between the sorted entries at `⌊h⌋` and
`⌈h⌉`; numpy raises on an empty array. -/
def npQuantileLinear (a : List ℚ) (q : ℚ) : Except String ℚ :=
  match a with
  | [] => .error "ValueError: zero-size array in quantile"
  | _ :: _ =>
    let srt := List.insertionSort (· ≤ ·) a
    let h := q * ((a.length : ℚ) - 1)
    let vlo := srt.getD (⌊h⌋).toNat 0
    let vhi := srt.getD (⌈h⌉).toNat 0
    .ok (vlo + (h - (⌊h⌋ : ℚ)) * (vhi - vlo))

/-- Dot product of two rational vectors. -/
def dotProd (u v : List ℚ) : ℚ := (List.zipWith (· * ·) u v).sum

/-- Column `j` of a row-major matrix. -/
def colOf (M : List (List ℚ)) (j : ℕ) : List ℚ := M.map (fun r => r.getD j 0)

/-- EnbPI instance state after `fit`: the number of bootstrap models `B`, the
caller-supplied aggregation function applied along axis 0, the normalized OOB
matrix, the stored residual pool, and the fitted bootstrap predictors
(`none` mirrors `_boot_predictors is None`); each predictor is abstracted as
a per-sample prediction function, indexed by model number. -/
structure EnbPI (X : Type) where
  B : ℕ
  aggFuncLoo : List ℚ → ℚ
  oobMatrix : List (List ℚ)
  residuals : List ℚ
  bootPredictors : Option (ℕ → X → ℚ)

/-- The aggregated LOO ensemble prediction of one batch inside
`EnbPI.predict`: stack the per-model batch predictions (`B × batch`),
multiply by the OOB matrix (`T × B`) to approximate the LOO predictions
(`T × batch`), then aggregate each column with `agg_func_loo(..., axis=0)`. -/
def enbpiYPredBatch {X : Type} (m : EnbPI X) (bp : ℕ → X → ℚ) (batch : List X) : List ℚ :=
  (List.range batch.length).map
    (fun j => m.aggFuncLoo
      (m.oobMatrix.map
        (fun row => dotProd row (colOf ((List.range m.B).map (fun b => batch.map (bp b))) j))))

/-- The per-batch loop of `EnbPI.predict`, state-threaded: the loop body only
appends to the local output lists and reassigns the local `updated_residuals`
and `res_quantile`, never a `self` attribute, which the embedding mirrors by
threading the instance `m` through unchanged. `pool` is `updated_residuals`
(a deep copy of the stored residuals on entry) and `q` is the quantile in
force for the current batch; when a true batch is supplied, the pool drops
its oldest `s` entries, appends the batch residuals, and the next quantile is
recomputed from that updated pool. -/
def enbpiLoop {X : Type} (m : EnbPI X) (bp : ℕ → X → ℚ) (alpha : ℚ) (s : ℕ) :
    List (List X × Option (List ℚ)) → (List ℚ × List ℚ × List ℚ) → List ℚ → ℚ →
    EnbPI X × Except String (List ℚ × List ℚ × List ℚ)
  | [], acc, _, _ => (m, .ok acc)
  | (batch, ybatch) :: rest, acc, pool, q =>
    let yPredBatch := enbpiYPredBatch m bp batch
    let lohi := constantInterval yPredBatch q
    let acc2 := (acc.1 ++ yPredBatch, acc.2.1 ++ lohi.1, acc.2.2 ++ lohi.2)
    match ybatch with
    | none => enbpiLoop m bp alpha s rest acc2 pool q
    | some yb =>
      match npQuantileLinear (pool.drop s ++ mad yPredBatch yb) (1 - alpha) with
      | .error e => (m, .error e)
      | .ok q2 => enbpiLoop m bp alpha s rest acc2 (pool.drop s ++ mad yPredBatch yb) q2

/-- Embedding of `EnbPI.predict`: compute the initial quantile from the stored
residuals, check `_boot_predictors`, slice the batches, and run the batch
loop on a copy of the stored residual pool. The first component of the
result is the instance state after the call. -/
def EnbPI.predict {X : Type} (m : EnbPI X) (Xtest : List X) (alpha : ℚ)
    (yTrue : Option (List ℚ)) (s? : Option ℕ) :
    EnbPI X × Except String (List ℚ × List ℚ × List ℚ) :=
  match npQuantileLinear m.residuals (1 - alpha) with
  | .error e => (m, .error e)
  | .ok q0 =>
    match m.bootPredictors with
    | none => (m, .error "RuntimeError: Fatal error: boot predictors is None.")
    | some bp =>
      enbpiLoop m bp alpha (batchRanges Xtest.length (yTrue.map List.length) s?).2
        ((batchRanges Xtest.length (yTrue.map List.length) s?).1.map
          (fun r => (pySlice Xtest r.1 r.2, yTrue.map (fun yv => pySlice yv r.1 r.2))))
        ([], [], []) m.residuals q0

/-- The claim C9 recurrence, written from its wording: process the batches in
order; for each batch compute the quantile from exactly the current pool,
predict and build the interval, then replace the pool by
`pool.drop s ++ (residuals of the batch true values against the aggregated
predictions)` before the next batch. -/
def enbpiSeqSpec {X : Type} (m : EnbPI X) (bp : ℕ → X → ℚ) (alpha : ℚ) (s : ℕ) :
    List (List X × List ℚ) → List ℚ → Except String (List ℚ × List ℚ × List ℚ)
  | [], _ => .ok ([], [], [])
  | (batch, yb) :: rest, pool =>
    match npQuantileLinear pool (1 - alpha) with
    | .error e => .error e
    | .ok q =>
      let yPredBatch := enbpiYPredBatch m bp batch
      let lohi := constantInterval yPredBatch q
      match enbpiSeqSpec m bp alpha s rest (pool.drop s ++ mad yPredBatch yb) with
      | .error e => .error e
      | .ok out => .ok (yPredBatch ++ out.1, lohi.1 ++ out.2.1, lohi.2 ++ out.2.2)

/-- Concrete fitted EnbPI instance over trivial features, used for closed
instantiations. -/
def unitEnbPI : EnbPI Unit :=
  ⟨1, fun _ => 0, [[1]], [5], some (fun _ _ => 0)⟩

/-! ## Helper lemmas -/

theorem cumsumFrom_length (acc : ℚ) (l : List ℚ) : (cumsumFrom acc l).length = l.length := by
  induction l generalizing acc with
  | nil => rfl
  | cons x xs ih => simp [cumsumFrom, ih]

theorem mem_cumsumFrom_sum (acc : ℚ) (l : List ℚ) (h : l ≠ []) :
    acc + l.sum ∈ cumsumFrom acc l := by
  induction l generalizing acc with
  | nil => exact absurd rfl h
  | cons x xs ih =>
    have hgoal : acc + (x :: xs).sum = (acc + x) + xs.sum := by
      rw [List.sum_cons]; ring
    rw [hgoal]
    show (acc + x) + xs.sum ∈ (acc + x) :: cumsumFrom (acc + x) xs
    cases xs with
    | nil => simp
    | cons y ys => exact List.mem_cons_of_mem _ (ih (acc + x) (by simp))

theorem firstSatisfying_some_spec (p : ℚ → Bool) (l : List ℚ) (j : ℕ)
    (h : firstSatisfying p l = some j) :
    j < l.length ∧ p (l.getD j 0) = true ∧ ∀ k, k < j → p (l.getD k 0) = false := by
  induction l generalizing j with
  | nil => simp [firstSatisfying] at h
  | cons c rest ih =>
    by_cases hc : p c
    · simp [firstSatisfying, hc] at h
      subst h
      refine ⟨by simp, by simpa using hc, fun k hk => absurd hk (by omega)⟩
    · simp only [firstSatisfying, hc, if_neg, Bool.false_eq_true, if_false] at h
      match hrec : firstSatisfying p rest with
      | none => rw [hrec] at h; simp at h
      | some j0 =>
        rw [hrec] at h
        simp at h
        obtain ⟨hlen, hj, hmin⟩ := ih j0 hrec
        subst h
        refine ⟨by simpa using Nat.succ_lt_succ hlen, by simpa using hj, ?_⟩
        intro k hk
        cases k with
        | zero => simpa using hc
        | succ k0 => simpa using hmin k0 (by omega)

theorem firstSatisfying_isSome_of_mem (p : ℚ → Bool) (l : List ℚ) (x : ℚ)
    (hx : x ∈ l) (hp : p x = true) : ∃ j, firstSatisfying p l = some j := by
  induction l with
  | nil => simp at hx
  | cons c rest ih =>
    by_cases hc : p c
    · exact ⟨0, by simp [firstSatisfying, hc]⟩
    · rcases List.mem_cons.mp hx with rfl | hmem
      · exact absurd hp (by simpa using hc)
      · obtain ⟨j, hj⟩ := ih hmem
        exact ⟨j + 1, by simp [firstSatisfying, hc, hj]⟩

theorem firstSatisfying_none_iff (p : ℚ → Bool) (l : List ℚ) :
    firstSatisfying p l = none ↔ ∀ c ∈ l, p c = false := by
  induction l with
  | nil => simp [firstSatisfying]
  | cons c rest ih =>
    by_cases hc : p c
    · simp [firstSatisfying, hc]
    · simp [firstSatisfying, hc, ih, Option.map_eq_none']

theorem npQuantileHigher_ok (a : List ℚ) (q : ℚ) (hne : a ≠ []) (h1 : q < 1) :
    exceptOk (npQuantileHigher a q) = true := by
  match a, hne with
  | x :: xs, _ =>
    have hn : 1 ≤ (x :: xs).length := by simp
    have hidx : (⌈q * (((x :: xs).length : ℚ) - 1)⌉).toNat < (x :: xs).length := by
      have hc : (0 : ℚ) ≤ ((x :: xs).length : ℚ) - 1 := by
        have : (1 : ℚ) ≤ ((x :: xs).length : ℚ) := by exact_mod_cast hn
        linarith
      have hle : q * (((x :: xs).length : ℚ) - 1) ≤ ((x :: xs).length : ℚ) - 1 :=
        mul_le_of_le_one_left hc (le_of_lt h1)
      have hcast : ((x :: xs).length : ℚ) - 1 = (((x :: xs).length - 1 : ℕ) : ℚ) := by
        push_cast [hn]
        ring
      have hceil : ⌈q * (((x :: xs).length : ℚ) - 1)⌉ ≤ ((x :: xs).length - 1 : ℕ) := by
        calc ⌈q * (((x :: xs).length : ℚ) - 1)⌉ ≤ ⌈((x :: xs).length : ℚ) - 1⌉ :=
              Int.ceil_le_ceil hle
          _ = (((x :: xs).length - 1 : ℕ) : ℤ) := by rw [hcast]; exact Int.ceil_natCast _
      have := Int.toNat_le_toNat hceil
      simp only [Int.toNat_natCast] at this
      omega
    have hlen : (List.insertionSort (· ≤ ·) (x :: xs)).length = (x :: xs).length :=
      List.length_insertionSort _ _
    rw [npQuantileHigher]
    rw [List.getElem?_eq_getElem (by omega)]
    rfl

/-! ## Claims C1 and C2 : the weighted quantile -/

/-- C1: for a 1-D residual list `a`, `alpha` strictly inside `(0, 1)` and a
same-length, non-negative weight vector summing exactly to 1, the weighted
quantile returns (without raising) the residual at the first position, in
ascending sorted order of `a`, whose cumulative weight reaches `alpha`; in
particular the returned value is an element of `a`. -/
theorem quantile_weighted_spec (a w : List ℚ) (alpha : ℚ)
    (h0 : 0 < alpha) (h1 : alpha < 1) (hlen : w.length = a.length)
    (hnn : ∀ x ∈ w, 0 ≤ x) (hsum : w.sum = 1) :
    ∃ j,
      quantile a alpha (some w) =
        .ok ((List.insertionSort (fun p q : ℚ × ℚ => p.1 ≤ q.1) (a.zip w)).getD j (0, 0)).1 ∧
      List.Sorted (fun p q : ℚ × ℚ => p.1 ≤ q.1)
        (List.insertionSort (fun p q : ℚ × ℚ => p.1 ≤ q.1) (a.zip w)) ∧
      (List.insertionSort (fun p q : ℚ × ℚ => p.1 ≤ q.1) (a.zip w)).Perm (a.zip w) ∧
      (j < (cumsum ((List.insertionSort (fun p q : ℚ × ℚ => p.1 ≤ q.1) (a.zip w)).map Prod.snd)).length ∧
       alpha ≤ (cumsum ((List.insertionSort (fun p q : ℚ × ℚ => p.1 ≤ q.1) (a.zip w)).map Prod.snd)).getD j 0 ∧
       ∀ k, k < j →
         (cumsum ((List.insertionSort (fun p q : ℚ × ℚ => p.1 ≤ q.1) (a.zip w)).map Prod.snd)).getD k 0 < alpha) ∧
      ((List.insertionSort (fun p q : ℚ × ℚ => p.1 ≤ q.1) (a.zip w)).getD j (0, 0)).1 ∈ a := by
  classical
  set srt := List.insertionSort (fun p q : ℚ × ℚ => p.1 ≤ q.1) (a.zip w) with hsrt
  set cums := cumsum (srt.map Prod.snd) with hcums
  have hperm : srt.Perm (a.zip w) := List.perm_insertionSort _ _
  have hmapsnd : List.map Prod.snd (a.zip w) = w :=
    List.map_snd_zip a w hlen.le
  have hpermw : (srt.map Prod.snd).Perm w := by
    have := hperm.map Prod.snd
    rwa [hmapsnd] at this
  have hsum2 : (srt.map Prod.snd).sum = 1 := by rw [hpermw.sum_eq, hsum]
  have hne : srt.map Prod.snd ≠ [] := by
    intro hcontra
    rw [hcontra] at hsum2
    simp at hsum2
  have hmem1 : (1 : ℚ) ∈ cums := by
    have := mem_cumsumFrom_sum 0 (srt.map Prod.snd) hne
    rw [zero_add, hsum2] at this
    exact this
  obtain ⟨j, hj⟩ := firstSatisfying_isSome_of_mem (fun c => decide (alpha ≤ c)) cums 1 hmem1
    (by simpa using le_of_lt h1)
  obtain ⟨hjlen, hjsat, hjmin⟩ := firstSatisfying_some_spec _ _ _ hj
  refine ⟨j, ?_, ?_, hperm, ⟨hjlen, by simpa using hjsat, ?_⟩, ?_⟩
  · have hcond1 : ¬ (alpha ≤ 0 ∨ 1 ≤ alpha) := by push_neg; exact ⟨h0, h1⟩
    have hcond2 : ¬ (w.length ≠ a.length) := by omega
    have hclose : npIsClose w.sum 1 (1 / 1000000) (1 / 100000) = true := by
      simp only [npIsClose, hsum, decide_eq_true_eq]
      norm_num
    have hcond3 : ¬ ¬ (npIsClose w.sum 1 (1 / 1000000) (1 / 100000) = true) :=
      not_not_intro hclose
    simp only [quantile, if_neg hcond1, if_neg hcond2, if_neg hcond3]
    rw [← hsrt, ← hcums, hj]
  · exact List.sorted_insertionSort _ _
  · intro k hk
    have := hjmin k hk
    simpa using this
  · have hjlt : j < srt.length := by
      have : cums.length = srt.length := by
        rw [hcums, cumsum, cumsumFrom_length, List.length_map]
      omega
    have hmem : srt.getD j (0, 0) ∈ srt := by
      rw [List.getD_eq_getElem?_getD, List.getElem?_eq_getElem hjlt]
      simpa using List.getElem_mem hjlt
    have hzip : srt.getD j (0, 0) ∈ a.zip w := hperm.mem_iff.mp hmem
    exact (List.of_mem_zip (by exact hzip)).1

/-- Witness for C1 at `a = [3, 1, 2]`, `w = [1/2, 1/4, 1/4]`, `alpha = 1/2`. -/
theorem quantile_weighted_spec_witness :
    (0 : ℚ) < 1 / 2 ∧ (1 : ℚ) / 2 < 1 ∧
    ([(1 : ℚ) / 2, 1 / 4, 1 / 4].length = [(3 : ℚ), 1, 2].length) ∧
    (∀ x ∈ [(1 : ℚ) / 2, 1 / 4, 1 / 4], 0 ≤ x) ∧
    ([(1 : ℚ) / 2, 1 / 4, 1 / 4].sum = 1) ∧
    (∃ j, quantile [(3 : ℚ), 1, 2] (1 / 2) (some [(1 : ℚ) / 2, 1 / 4, 1 / 4]) =
      .ok ((List.insertionSort (fun p q : ℚ × ℚ => p.1 ≤ q.1)
        ([(3 : ℚ), 1, 2].zip [(1 : ℚ) / 2, 1 / 4, 1 / 4])).getD j (0, 0)).1) := by
  refine ⟨by norm_num, by norm_num, rfl, ?_, ?_, ?_⟩
  · intro x hx
    fin_cases hx <;> norm_num
  · norm_num
  · obtain ⟨j, hj, _⟩ := quantile_weighted_spec [(3 : ℚ), 1, 2] [(1 : ℚ) / 2, 1 / 4, 1 / 4] (1 / 2)
      (by norm_num) (by norm_num) rfl (by intro x hx; fin_cases hx <;> norm_num) (by norm_num)
    exact ⟨j, hj⟩

/-- C2 counterexample: at `a = [0]`, `alpha = 1/2`, `w = [1 + 1/200000]` the
weight sum `1 + 5e-6` lies outside `1 ± 1e-6`, so the claim as stated says
the call raises; the code accepts it (numpy isclose keeps `rtol = 1e-5`, so
its envelope is `1.1e-5`) and returns the value 0. -/
theorem quantile_tolerance_counterexample :
    quantile [0] (1 / 2) (some [1 + 1 / 200000]) = .ok 0 ∧
    ¬ (|((1 : ℚ) + 1 / 200000) - 1| ≤ 1 / 1000000) := by
  constructor
  · have hα : ¬ ((1 : ℚ) / 2 ≤ 0 ∨ (1 : ℚ) ≤ 1 / 2) := by norm_num
    have hlen : ¬ (([(1 : ℚ) + 1 / 200000]).length ≠ ([(0 : ℚ)]).length) := by simp
    have hnorm : npIsClose ([(1 : ℚ) + 1 / 200000]).sum 1 (1 / 1000000) (1 / 100000) = true := by
      simp only [npIsClose, List.sum_cons, List.sum_nil, decide_eq_true_eq]
      rw [show |(1 : ℚ) + 1 / 200000 + 0 - 1| = 1 / 200000 by rw [abs_of_nonneg] <;> norm_num]
      norm_num
    have hfs : firstSatisfying (fun c => decide ((1 : ℚ) / 2 ≤ c))
        (cumsum ((List.insertionSort (fun p q : ℚ × ℚ => p.1 ≤ q.1)
          (([(0 : ℚ)]).zip [(1 : ℚ) + 1 / 200000])).map Prod.snd)) = some 0 := by
      simp only [List.zip_cons_cons, List.zip_nil_right, List.insertionSort,
        List.orderedInsert, List.map_cons, List.map_nil, cumsum, cumsumFrom, firstSatisfying]
      norm_num
    simp only [quantile, if_neg hα, if_neg hlen, if_neg (not_not_intro hnorm), hfs]
    rfl
  · rw [show |((1 : ℚ) + 1 / 200000) - 1| = 1 / 200000 by rw [abs_of_nonneg] <;> norm_num]
    norm_num

/-- C2 amended: on 1-D inputs, `quantile` raises exactly when `alpha` is not
strictly between 0 and 1, or the unweighted branch receives an empty array,
or weights are given with a different length, or the weight sum fails the
numpy isclose test `|sum - 1| ≤ 1e-6 + 1e-5` (the default `rtol = 1e-5` stays
active), or no position in ascending sorted order has cumulative weight
reaching `alpha` (possible when the tolerated sum falls below `alpha`); on
every other input it returns a value without raising. -/
theorem quantile_raises_iff (a : List ℚ) (alpha : ℚ) (w : Option (List ℚ)) :
    exceptOk (quantile a alpha w) = false ↔
      ((alpha ≤ 0 ∨ 1 ≤ alpha) ∨
       (w = none ∧ a = []) ∨
       (∃ wv, w = some wv ∧
         (wv.length ≠ a.length ∨
          ¬ (|wv.sum - 1| ≤ 11 / 1000000) ∨
          (∀ c ∈ cumsum ((List.insertionSort (fun p q : ℚ × ℚ => p.1 ≤ q.1) (a.zip wv)).map Prod.snd),
            c < alpha)))) := by
  by_cases hα : alpha ≤ 0 ∨ 1 ≤ alpha
  · have hval : quantile a alpha w =
        .error "ValueError: Alpha must be in the open interval (0, 1)" := by
      simp only [quantile, if_pos hα]
    rw [hval]
    exact iff_of_true rfl (Or.inl hα)
  · have h1 : alpha < 1 := by push_neg at hα; exact hα.2
    cases w with
    | none =>
      cases a with
      | nil =>
        have hval : quantile [] alpha none =
            .error "ValueError: zero-size array in quantile" := by
          simp only [quantile, if_neg hα, npQuantileHigher]
        rw [hval]
        exact iff_of_true rfl (Or.inr (Or.inl ⟨rfl, rfl⟩))
      | cons x xs =>
        have hval : exceptOk (quantile (x :: xs) alpha none) = true := by
          have heq : quantile (x :: xs) alpha none = npQuantileHigher (x :: xs) alpha := by
            simp only [quantile, if_neg hα]
          rw [heq]
          exact npQuantileHigher_ok (x :: xs) alpha (by simp) h1
        refine iff_of_false (by rw [hval]; simp) ?_
        rintro ((h | h) | ⟨_, h⟩ | ⟨wv, hwv, _⟩)
        · exact absurd (Or.inl h) hα
        · exact absurd (Or.inr h) hα
        · exact List.cons_ne_nil x xs h
        · exact Option.noConfusion hwv
    | some wv =>
      have htol : (1 : ℚ) / 1000000 + 1 / 100000 * |(1 : ℚ)| = 11 / 1000000 := by norm_num
      by_cases hlen : wv.length ≠ a.length
      · have hval : quantile a alpha (some wv) =
            .error "RuntimeError: M and W must have the same shape" := by
          simp only [quantile, if_neg hα, if_pos hlen]
        rw [hval]
        exact iff_of_true rfl (Or.inr (Or.inr ⟨wv, rfl, Or.inl hlen⟩))
      · by_cases hnorm : npIsClose wv.sum 1 (1 / 1000000) (1 / 100000) = true
        · have hnorm2 : |wv.sum - 1| ≤ 11 / 1000000 := by
            have := of_decide_eq_true hnorm
            rwa [htol] at this
          match hfs : firstSatisfying (fun c => decide (alpha ≤ c))
              (cumsum ((List.insertionSort (fun p q : ℚ × ℚ => p.1 ≤ q.1) (a.zip wv)).map Prod.snd)) with
          | some j =>
            have hval : quantile a alpha (some wv) =
                .ok (((List.insertionSort (fun p q : ℚ × ℚ => p.1 ≤ q.1) (a.zip wv)).getD j (0, 0)).1) := by
              simp only [quantile, if_neg hα, if_neg hlen, if_neg (not_not_intro hnorm), hfs]
            obtain ⟨hjlen, hjsat, _⟩ := firstSatisfying_some_spec _ _ _ hfs
            have hmem : (cumsum ((List.insertionSort (fun p q : ℚ × ℚ => p.1 ≤ q.1) (a.zip wv)).map Prod.snd)).getD j 0
                ∈ cumsum ((List.insertionSort (fun p q : ℚ × ℚ => p.1 ≤ q.1) (a.zip wv)).map Prod.snd) := by
              rw [List.getD_eq_getElem?_getD, List.getElem?_eq_getElem hjlen]
              simp
            simp only [decide_eq_true_eq] at hjsat
            refine iff_of_false (by rw [hval]; simp [exceptOk]) ?_
            rintro ((h | h) | ⟨hn, _⟩ | ⟨wv2, hwv2, (h | h | h)⟩)
            · exact absurd (Or.inl h) hα
            · exact absurd (Or.inr h) hα
            · exact Option.noConfusion hn
            · injection hwv2 with h2; exact hlen (h2 ▸ h)
            · injection hwv2 with h2; exact (h2 ▸ h) hnorm2
            · injection hwv2 with h2
              subst h2
              exact absurd hjsat (not_le.mpr (h _ hmem))
          | none =>
            have hval : quantile a alpha (some wv) =
                .error "IndexError: cumulative weights never reach alpha" := by
              simp only [quantile, if_neg hα, if_neg hlen, if_neg (not_not_intro hnorm), hfs]
            rw [hval]
            refine iff_of_true rfl (Or.inr (Or.inr ⟨wv, rfl, Or.inr (Or.inr ?_)⟩))
            intro c hc
            have := (firstSatisfying_none_iff _ _).mp hfs c hc
            simpa using this
        · have hnorm2 : ¬ (|wv.sum - 1| ≤ 11 / 1000000) := by
            intro hcontra
            exact hnorm (by rw [npIsClose, decide_eq_true_eq, htol]; exact hcontra)
          have hval : quantile a alpha (some wv) =
              .error "RuntimeError: W is not normalized" := by
            simp only [quantile, if_neg hα, if_neg hlen, if_pos hnorm, exceptOk]
          rw [hval]
          exact iff_of_true rfl (Or.inr (Or.inr ⟨wv, rfl, Or.inr (Or.inl hnorm2)⟩))

/-! ## Claims C3, C4, C5 : the conformalization layer -/

/-- C3: on an unfitted ConformalPredictor, `predict` raises the call-fit-first
RuntimeError, but `get_residuals` and `get_weights` RETURN the RuntimeError
object as an ordinary value (`return RuntimeError(...)` in the source, where
`predict` uses `raise` with the same message) - the accessor failure is not
surfaced to the caller as an exception. -/
theorem conformalPredictor_unfitted (X P L : Type)
    (cvPlusCalibrate : List (ℕ × KFoldCalibrator X P L) → List (ℕ × KFoldPredictor X P) → X → ℚ → L × L)
    (cp : ConformalPredictor X P L) (h : cp.cvCpAgg = none) (x : X) (alpha : ℚ) :
    ConformalPredictor.predict cvPlusCalibrate cp x alpha =
      .error "RuntimeError: Error: call fit method first." ∧
    cp.getResiduals = PyVal.runtimeErrorObj "Error: call fit method first." ∧
    cp.getWeights = PyVal.runtimeErrorObj "Error: call fit method first." := by
  refine ⟨?_, ?_, ?_⟩ <;>
    simp only [ConformalPredictor.predict, ConformalPredictor.getResiduals,
      ConformalPredictor.getWeights, h]

/-- Witness for C3 at a concrete unfitted predictor over trivial types. -/
theorem conformalPredictor_unfitted_witness :
    unitUnfittedCP.cvCpAgg = none ∧
    unitUnfittedCP.getResiduals = PyVal.runtimeErrorObj "Error: call fit method first." := by
  constructor
  · rfl
  · exact (conformalPredictor_unfitted Unit Unit Unit (fun _ _ _ _ => ((), ()))
      unitUnfittedCP rfl () (1 / 2)).2.1

/-- C4: the constructor guard of CrossValCpAggregator is a substring test of
`method` inside the string "cv+" (the tuple comma is missing), so the method
"cv" - different from "cv+" - constructs successfully and is stored, while the
claim says every method other than "cv+" is rejected at construction; "cv+"
itself succeeds and a non-substring such as "mean" does error. -/
theorem crossValCpAggregatorInit_substring_slip :
    (∃ agg : CrossValCpAggregator Unit Unit Unit,
        crossValCpAggregatorInit Unit Unit Unit 3 "cv" = .ok agg ∧ agg.method = "cv") ∧
    ("cv" : String) ≠ "cv+" ∧
    exceptOk (crossValCpAggregatorInit Unit Unit Unit 3 "cv+") = true ∧
    exceptOk (crossValCpAggregatorInit Unit Unit Unit 3 "mean") = false := by
  refine ⟨⟨⟨3, "cv", [], []⟩, rfl, rfl⟩, by decide, rfl, rfl⟩

theorem lookup_mem_of_key {β : Type} {k : ℕ} {l : List (ℕ × β)}
    (hk : k ∈ l.map Prod.fst) : ∃ c, l.lookup k = some c := by
  induction l with
  | nil => simp at hk
  | cons p rest ih =>
    by_cases hpk : k = p.1
    · exact ⟨p.2, by simp [List.lookup, hpk]⟩
    · have hmem : k ∈ rest.map Prod.fst := by
        rcases List.mem_map.mp hk with ⟨q, hq, hqk⟩
        rcases List.mem_cons.mp hq with rfl | hq2
        · exact absurd hqk.symm hpk
        · exact List.mem_map.mpr ⟨q, hq2, hqk⟩
      obtain ⟨c, hc⟩ := ih hmem
      refine ⟨c, ?_⟩
      have hbeq : (k == p.1) = false := by simpa using hpk
      simp [List.lookup, hbeq, hc]

/-- C5: on a CrossValCpAggregator whose predictor and calibrator key sets
match and whose method is "cv+": with exactly one fold, `predict` returns the
single predictor output calibrated by the single calibrator, as
`(y_pred, y_lower, y_upper, var_pred)`; with more than one fold it returns
`(None, y_lower, y_upper, None)` where the bounds come from the
CvPlusCalibrator applied to all folds. -/
theorem crossValCpAggregator_predict_dispatch (X P L : Type)
    (cvPlusCalibrate : List (ℕ × KFoldCalibrator X P L) → List (ℕ × KFoldPredictor X P) → X → ℚ → L × L)
    (agg : CrossValCpAggregator X P L) (x : X) (alpha : ℚ)
    (hkeys : keysEq (agg.predictors.map Prod.fst) (agg.calibrators.map Prod.fst) = true)
    (hmethod : agg.method = "cv+") :
    (∀ k f, agg.predictors = [(k, f)] →
      ∃ c, agg.calibrators.lookup k = some c ∧
        CrossValCpAggregator.predict cvPlusCalibrate agg x alpha =
          .ok (some (f.predict x).1, (c.calibrate x alpha (f.predict x)).1,
               (c.calibrate x alpha (f.predict x)).2, some (f.predict x).2.2.2)) ∧
    (1 < agg.predictors.length →
      CrossValCpAggregator.predict cvPlusCalibrate agg x alpha =
        .ok (none, (cvPlusCalibrate agg.calibrators agg.predictors x alpha).1,
             (cvPlusCalibrate agg.calibrators agg.predictors x alpha).2, none)) := by
  constructor
  · intro k f hps
    have hk : k ∈ agg.calibrators.map Prod.fst := by
      have hall := (Bool.and_eq_true _ _).mp hkeys |>.1
      rw [List.all_eq_true] at hall
      have hkmem : k ∈ agg.predictors.map Prod.fst := by
        rw [hps]; simp
      have := hall k hkmem
      simpa using this
    obtain ⟨c, hc⟩ := lookup_mem_of_key hk
    refine ⟨c, hc, ?_⟩
    rw [hps] at hkeys
    simp only [CrossValCpAggregator.predict, hps, hc]
    rw [if_neg (not_not_intro hkeys)]
  · intro hlong
    match hps : agg.predictors with
    | [] => rw [hps] at hlong; simp at hlong
    | [p] => rw [hps] at hlong; simp at hlong
    | p :: q :: rest =>
      rw [hps] at hkeys
      simp only [CrossValCpAggregator.predict, hps, hmethod]
      rw [if_neg (not_not_intro hkeys)]
      exact if_pos trivial

/-- Witness for C5 at the concrete single-fold aggregator. -/
theorem crossValCpAggregator_predict_dispatch_witness :
    keysEq (unitAggregator.predictors.map Prod.fst) (unitAggregator.calibrators.map Prod.fst) = true ∧
    unitAggregator.method = "cv+" ∧
    ∃ c, unitAggregator.calibrators.lookup 0 = some c ∧
      CrossValCpAggregator.predict (fun _ _ _ _ => ((), ())) unitAggregator () (1 / 2) =
        .ok (some (), (), (), some ()) := by
  refine ⟨rfl, rfl, ?_⟩
  exact (crossValCpAggregator_predict_dispatch Unit Unit Unit (fun _ _ _ _ => ((), ()))
    unitAggregator () (1 / 2) rfl rfl).1 0 ⟨fun _ => ((), (), (), ())⟩ rfl

/-! ## Claims C6 and C7 : EnbPI.fit -/

theorem indicator_sum_nonneg (l : List ℕ) (p : ℕ → Bool) :
    0 ≤ (l.map (fun b => if p b then (1 : ℚ) else 0)).sum := by
  induction l with
  | nil => simp
  | cons b rest ih =>
    simp only [List.map_cons, List.sum_cons]
    by_cases hb : p b <;> simp [hb] <;> linarith

theorem indicator_sum_eq_zero_iff (l : List ℕ) (p : ℕ → Bool) :
    (l.map (fun b => if p b then (1 : ℚ) else 0)).sum = 0 ↔ ∀ b ∈ l, p b = false := by
  induction l with
  | nil => simp
  | cons b rest ih =>
    simp only [List.map_cons, List.sum_cons]
    by_cases hb : p b
    · simp only [hb, if_pos]
      constructor
      · intro h
        have := indicator_sum_nonneg rest p
        linarith
      · intro h
        exact absurd hb (by simpa using h b (List.mem_cons_self b rest))
    · simp only [hb, if_neg, Bool.false_eq_true, if_false, zero_add, ih]
      constructor
      · intro h c hc
        rcases List.mem_cons.mp hc with rfl | hc2
        · simpa using hb
        · exact h c hc2
      · intro h c hc
        exact h c (List.mem_cons_of_mem b hc)

theorem sum_map_div (l : List ℚ) (c : ℚ) : (l.map (fun x => x / c)).sum = l.sum / c := by
  induction l with
  | nil => simp
  | cons x rest ih => simp [ih, add_div]

theorem oobUnits_contains (T : ℕ) (boot : List ℕ) (i : ℕ) :
    (oobUnits T boot).contains i = true ↔ i < T ∧ i ∉ boot := by
  simp [oobUnits, List.elem_iff, List.mem_filter, List.mem_range]

theorem getD_map_oob (T : ℕ) (bootDict : List (List ℕ)) (b : ℕ) (hb : b < bootDict.length) :
    (bootDict.map (oobUnits T)).getD b [] = oobUnits T (bootDict.getD b []) := by
  rw [List.getD_eq_getElem?_getD, List.getD_eq_getElem?_getD, List.getElem?_map]
  rw [List.getElem?_eq_getElem hb]
  simp

/-- C6: the OOB-matrix phase of `EnbPI.fit`, run on the retained bootstrap
index sets, raises exactly when some training sample `i < T` is contained in
every one of the `B` bootstrap index sets (its OOB indicator row is all
zeros); on success the stored matrix is `T × B` and every row of the
normalized matrix sums to 1, in particular within `1e-9`. -/
theorem buildOobMatrix_spec (T B : ℕ) (bootDict : List (List ℕ))
    (hB : bootDict.length = B) :
    (exceptOk (buildOobMatrix T B bootDict) = false ↔
      ∃ i, i < T ∧ ∀ b, b < B → i ∈ bootDict.getD b []) ∧
    (∀ M, buildOobMatrix T B bootDict = .ok M →
      M.length = T ∧ ∀ r ∈ M, r.length = B ∧ |r.sum - 1| ≤ 1 / 1000000000) := by
  have hrowzero : ∀ i, i < T →
      ((oobRow B (bootDict.map (oobUnits T)) i).sum = 0 ↔
        ∀ b, b < B → i ∈ bootDict.getD b []) := by
    intro i hi
    rw [oobRow, indicator_sum_eq_zero_iff]
    constructor
    · intro h b hb
      have := h b (List.mem_range.mpr hb)
      rw [getD_map_oob T bootDict b (by omega)] at this
      by_contra hcontra
      have : (oobUnits T (bootDict.getD b [])).contains i = true :=
        (oobUnits_contains T _ i).mpr ⟨hi, hcontra⟩
      simp_all
    · intro h b hb
      rw [getD_map_oob T bootDict b (by rw [hB]; exact List.mem_range.mp hb)]
      rw [Bool.eq_false_iff]
      intro hcontra
      have := (oobUnits_contains T _ i).mp hcontra
      exact this.2 (h b (List.mem_range.mp hb))
  constructor
  · rw [buildOobMatrix]
    by_cases hall : (((List.range T).map (oobRow B (bootDict.map (oobUnits T)))).all
        (fun r => decide (r.sum ≠ 0))) = true
    · rw [if_pos hall]
      simp only [exceptOk]
      constructor
      · intro h; exact absurd h (by simp)
      · rintro ⟨i, hi, hmem⟩
        rw [List.all_eq_true] at hall
        have hrow : oobRow B (bootDict.map (oobUnits T)) i ∈
            (List.range T).map (oobRow B (bootDict.map (oobUnits T))) :=
          List.mem_map.mpr ⟨i, List.mem_range.mpr hi, rfl⟩
        have := hall _ hrow
        rw [decide_eq_true_eq] at this
        exact absurd ((hrowzero i hi).mpr hmem) this
    · rw [if_neg hall]
      simp only [exceptOk]
      constructor
      · intro _
        rw [List.all_eq_true] at hall
        push_neg at hall
        obtain ⟨r, hr, hrz⟩ := hall
        obtain ⟨i, hi, hri⟩ := List.mem_map.mp hr
        refine ⟨i, List.mem_range.mp hi, ?_⟩
        rw [← hrowzero i (List.mem_range.mp hi)]
        subst hri
        simpa using hrz
      · intro _; trivial
  · intro M hM
    rw [buildOobMatrix] at hM
    by_cases hall : (((List.range T).map (oobRow B (bootDict.map (oobUnits T)))).all
        (fun r => decide (r.sum ≠ 0))) = true
    · rw [if_pos hall] at hM
      injection hM with hM
      subst hM
      constructor
      · simp
      · intro r hr
        obtain ⟨r0, hr0, hrr⟩ := List.mem_map.mp hr
        obtain ⟨i, hi, hri⟩ := List.mem_map.mp hr0
        rw [List.all_eq_true] at hall
        have hnz := hall _ hr0
        rw [decide_eq_true_eq] at hnz
        subst hrr
        constructor
        · rw [List.length_map, ← hri, oobRow, List.length_map, List.length_range]
        · rw [sum_map_div, div_self hnz]
          norm_num
    · rw [if_neg hall] at hM
      exact Except.noConfusion hM

/-- Witness for C6 at `T = 2`, `B = 2`, bootstrap sets `[[0], [1]]`. -/
theorem buildOobMatrix_spec_witness :
    ([[0], [1]] : List (List ℕ)).length = 2 ∧
    ((exceptOk (buildOobMatrix 2 2 [[0], [1]]) = false ↔
      ∃ i, i < 2 ∧ ∀ b, b < 2 → i ∈ ([[0], [1]] : List (List ℕ)).getD b []) ∧
     (∀ M, buildOobMatrix 2 2 [[0], [1]] = .ok M →
       M.length = 2 ∧ ∀ r ∈ M, r.length = 2 ∧ |r.sum - 1| ≤ 1 / 1000000000)) :=
  ⟨rfl, buildOobMatrix_spec 2 2 [[0], [1]] rfl⟩

/-- C7: when a base `random_state` is supplied, the seed of the resample call
is fixed before the retry loop, so every retry redraws the identical
bootstrap sample; if the first draw covers the whole index range (empty OOB,
e.g. always at `T = 1`), the loop never terminates, contradicting the claim
that the resample is retried with a fresh different draw until the OOB set is
non-empty. -/
theorem sampleOobLoop_seeded_stuck (T : ℕ) (draw : ℕ → List ℕ)
    (hconst : ∀ k, draw k = draw 0) (hempty : oobUnits T (draw 0) = []) :
    ∀ fuel k, sampleOobLoop T draw k fuel = none := by
  intro fuel
  induction fuel with
  | zero => intro k; rfl
  | succ n ih =>
    intro k
    rw [sampleOobLoop, hconst k, hempty]
    simpa using ih (k + 1)

/-- Witness for C7 at `T = 1` with the only possible one-element resample. -/
theorem sampleOobLoop_seeded_stuck_witness :
    oobUnits 1 ((fun _ : ℕ => [0]) 0) = [] ∧
    sampleOobLoop 1 (fun _ => [0]) 0 5 = none :=
  ⟨rfl, sampleOobLoop_seeded_stuck 1 (fun _ => [0]) (fun _ => rfl) rfl 5 0⟩

/-! ## Claim C8 : EnbPI.predict batching -/

/-- C8 counterexample: with 5 true values and `s = 2` the code produces
`⌊5/2⌋ = 2` batches, the last absorbing the remainder
(`[[10, 20], [30, 40, 50]]`), not the 2 fixed batches plus a separate
remainder batch `[[10, 20], [30, 40], [50]]` the claim describes. -/
theorem enbpiBatches_last_absorbs :
    enbpiBatches ℕ ℕ [10, 20, 30, 40, 50] (some [0, 0, 0, 0, 0]) (some 2) =
      [[10, 20], [30, 40, 50]] ∧
    claimedBatchesC8 ℕ [10, 20, 30, 40, 50] 5 2 = [[10, 20], [30, 40], [50]] ∧
    ([[10, 20], [30, 40, 50]] : List (List ℕ)) ≠ [[10, 20], [30, 40], [50]] := by
  refine ⟨by decide, by decide, by decide⟩

theorem enbpiBatches_shape (α β : Type) (Xtest : List α) (y : List β) (s : ℕ)
    (hs : 0 < s) (hsle : s ≤ y.length) :
    enbpiBatches α β Xtest (some y) (some s) =
      ((List.range (y.length / s - 1)).map (fun i => (Xtest.drop (i * s)).take s)) ++
        [Xtest.drop ((y.length / s - 1) * s)] := by
  have hnb : 1 ≤ y.length / s := (Nat.one_le_div_iff hs).mpr hsle
  rw [enbpiBatches]
  simp only [Option.map_some', batchRanges]
  have hrange : List.range (y.length / s) =
      List.range (y.length / s - 1) ++ [y.length / s - 1] := by
    have h2 : y.length / s = (y.length / s - 1) + 1 := by omega
    rw [h2, List.range_succ]
    simp
  rw [hrange, List.map_append, List.map_append]
  congr 1
  · rw [List.map_map]
    apply List.map_congr_left
    intro i hi
    have hilt : i < y.length / s - 1 := List.mem_range.mp hi
    simp only [Function.comp_apply]
    rw [if_neg (by omega)]
    show pySlice Xtest (i * s) (some ((i + 1) * s)) = (Xtest.drop (i * s)).take s
    rw [pySlice, List.drop_take, Nat.succ_mul, Nat.add_sub_cancel_left]
  · simp only [List.map_map, List.map_cons, List.map_nil, Function.comp_apply]
    rw [if_pos trivial]
    rfl

theorem join_take_chunks {α : Type} (l : List α) (s : ℕ) (m : ℕ) :
    ((List.range m).map (fun i => (l.drop (i * s)).take s)).flatten = l.take (m * s) := by
  induction m with
  | zero => simp
  | succ n ih =>
    rw [List.range_succ, List.map_append, List.flatten_append]
    simp only [List.map_cons, List.map_nil, List.flatten_cons, List.flatten_nil, List.append_nil]
    rw [ih, Nat.succ_mul, List.take_add]

theorem rangeMap_getD {α : Type} (m : ℕ) (f : ℕ → α) (i : ℕ) (d : α) (hi : i < m) :
    ((List.range m).map f).getD i d = f i := by
  rw [List.getD_eq_getElem?_getD, List.getElem?_map]
  rw [List.getElem?_eq_getElem (by simpa using hi)]
  simp

/-- C8 amended: when `y_true` is absent, or present without `s`, the whole
test set is one batch; when both are given there are `⌊len(y_true)/s⌋`
batches in total, the first `⌊len(y_true)/s⌋ - 1` of size `s` and the final
batch absorbing the remainder (size `s + len(y_true) % s` on a test set of
the same length); concatenating the batches in order gives back the whole
test set, so (when `s ≤ len(y_true)`) every test sample is processed in
exactly one batch. -/
theorem enbpiBatches_amended (α β : Type) (Xtest : List α) (y : List β) (s : ℕ)
    (hlen : Xtest.length = y.length) (hs : 0 < s) (hsle : s ≤ y.length) :
    (enbpiBatches α β Xtest (some y) (some s)).length = y.length / s ∧
    (∀ i, i < y.length / s - 1 →
      (enbpiBatches α β Xtest (some y) (some s)).getD i [] = (Xtest.drop (i * s)).take s ∧
      ((Xtest.drop (i * s)).take s).length = s) ∧
    (enbpiBatches α β Xtest (some y) (some s)).getD (y.length / s - 1) [] =
      Xtest.drop ((y.length / s - 1) * s) ∧
    (Xtest.drop ((y.length / s - 1) * s)).length = s + y.length % s ∧
    (enbpiBatches α β Xtest (some y) (some s)).flatten = Xtest ∧
    (∀ yb : Option (List β), ∀ s2 : Option ℕ, (yb = none ∨ s2 = none) →
      enbpiBatches α β Xtest yb s2 = [Xtest]) := by
  have hnb : 1 ≤ y.length / s := (Nat.one_le_div_iff hs).mpr hsle
  have hshape := enbpiBatches_shape α β Xtest y s hs hsle
  have hmul : (y.length / s) * s ≤ y.length := Nat.div_mul_le_self _ _
  have hmod : y.length % s + s * (y.length / s) = y.length := Nat.mod_add_div _ _
  have hsubmul : (y.length / s - 1) * s = (y.length / s) * s - s := by
    rw [Nat.sub_mul, one_mul]
  have hcomm : s * (y.length / s) = (y.length / s) * s := Nat.mul_comm _ _
  refine ⟨?_, ?_, ?_, ?_, ?_, ?_⟩
  · rw [hshape]
    simp only [List.length_append, List.length_map, List.length_range, List.length_cons,
      List.length_nil]
    omega
  · intro i hi
    constructor
    · rw [hshape]
      rw [List.getD_append _ _ _ _ (by simpa using hi)]
      exact rangeMap_getD _ _ i [] hi
    · have h2 : (i + 1) * s ≤ (y.length / s) * s :=
        Nat.mul_le_mul_right s (by omega)
      have h3 : (i + 1) * s = i * s + s := Nat.succ_mul i s
      rw [List.length_take, List.length_drop, hlen]
      omega
  · rw [hshape]
    rw [List.getD_append_right _ _ _ _ (by simp)]
    simp
  · have hge : s * 1 ≤ s * (y.length / s) := Nat.mul_le_mul_left s hnb
    rw [List.length_drop, hlen, hsubmul, ← hcomm]
    omega
  · rw [hshape, List.flatten_append]
    simp only [List.flatten_cons, List.flatten_nil, List.append_nil]
    rw [join_take_chunks, List.take_append_drop]
  · rintro yb s2 (rfl | rfl)
    · simp [enbpiBatches, batchRanges, pySlice]
    · cases yb <;> simp [enbpiBatches, batchRanges, pySlice]

/-- Witness for C8 amended at 5 test samples and `s = 2`. -/
theorem enbpiBatches_amended_witness :
    ([1, 2, 3, 4, 5] : List ℕ).length = ([0, 0, 0, 0, 0] : List ℕ).length ∧
    0 < 2 ∧ 2 ≤ ([0, 0, 0, 0, 0] : List ℕ).length ∧
    (enbpiBatches ℕ ℕ [1, 2, 3, 4, 5] (some [0, 0, 0, 0, 0]) (some 2)).flatten =
      [1, 2, 3, 4, 5] :=
  ⟨rfl, by decide, by decide,
    (enbpiBatches_amended ℕ ℕ [1, 2, 3, 4, 5] [0, 0, 0, 0, 0] 2 rfl (by decide)
      (by decide)).2.2.2.2.1⟩

/-! ## Claims C9 and C10 : EnbPI.predict sequential update and purity -/

theorem npQuantileLinear_ok {a : List ℚ} (q : ℚ) (hne : a ≠ []) :
    ∃ v, npQuantileLinear a q = .ok v := by
  match a, hne with
  | x :: xs, _ => exact ⟨_, rfl⟩

theorem enbpiLoop_state {X : Type} (m : EnbPI X) (bp : ℕ → X → ℚ) (alpha : ℚ) (s : ℕ)
    (bs : List (List X × Option (List ℚ))) (acc : List ℚ × List ℚ × List ℚ)
    (pool : List ℚ) (q : ℚ) :
    (enbpiLoop m bp alpha s bs acc pool q).1 = m := by
  induction bs generalizing acc pool q with
  | nil => rfl
  | cons p rest ih =>
    obtain ⟨batch, ybatch⟩ := p
    cases ybatch with
    | none => exact ih _ _ _
    | some yb =>
      rw [enbpiLoop]
      match hq : npQuantileLinear (pool.drop s ++ mad (enbpiYPredBatch m bp batch) yb) (1 - alpha) with
      | .error e => simp [hq]
      | .ok q2 => simp [hq, ih]

theorem enbpiYPredBatch_length {X : Type} (m : EnbPI X) (bp : ℕ → X → ℚ) (batch : List X) :
    (enbpiYPredBatch m bp batch).length = batch.length := by
  simp [enbpiYPredBatch]

theorem enbpiLoop_eq_seqSpec {X : Type} (m : EnbPI X) (bp : ℕ → X → ℚ) (alpha : ℚ) (s : ℕ)
    (bs : List (List X × List ℚ)) :
    (∀ p ∈ bs, mad (enbpiYPredBatch m bp p.1) p.2 ≠ []) →
    ∀ pool q acc, npQuantileLinear pool (1 - alpha) = .ok q →
      (enbpiLoop m bp alpha s (bs.map (fun p => (p.1, some p.2))) acc pool q).2 =
        (enbpiSeqSpec m bp alpha s bs pool).map
          (fun out => (acc.1 ++ out.1, acc.2.1 ++ out.2.1, acc.2.2 ++ out.2.2)) := by
  induction bs with
  | nil =>
    intro _ pool q acc hq
    simp [enbpiLoop, enbpiSeqSpec, Except.map]
  | cons p rest ih =>
    intro hne pool q acc hq
    obtain ⟨batch, yb⟩ := p
    have hnep : mad (enbpiYPredBatch m bp batch) yb ≠ [] :=
      hne (batch, yb) (List.mem_cons_self _ _)
    have hpool2 : pool.drop s ++ mad (enbpiYPredBatch m bp batch) yb ≠ [] := by
      intro hc
      rcases List.append_eq_nil.mp hc with ⟨_, h2⟩
      exact hnep h2
    obtain ⟨q2, hq2⟩ := npQuantileLinear_ok (1 - alpha) hpool2
    have ihr := ih (fun p hp => hne p (List.mem_cons_of_mem _ hp))
      (pool.drop s ++ mad (enbpiYPredBatch m bp batch) yb) q2
      (acc.1 ++ enbpiYPredBatch m bp batch,
       acc.2.1 ++ (constantInterval (enbpiYPredBatch m bp batch) q).1,
       acc.2.2 ++ (constantInterval (enbpiYPredBatch m bp batch) q).2) hq2
    rw [List.map_cons]
    rw [enbpiLoop]
    simp only [hq2]
    rw [ihr]
    rw [enbpiSeqSpec]
    simp only [hq]
    cases hspec : enbpiSeqSpec m bp alpha s rest
        (pool.drop s ++ mad (enbpiYPredBatch m bp batch) yb) with
    | error e => simp [Except.map]
    | ok out =>
      simp only [Except.map]
      rw [List.append_assoc, List.append_assoc, List.append_assoc]

theorem batch_slice_length {γ : Type} (l : List γ) (nT n s : ℕ) (hlen : l.length = n)
    (hs : 0 < s) (hsle : s ≤ n) :
    ∀ r ∈ (batchRanges nT (some n) (some s)).1, 1 ≤ (pySlice l r.1 r.2).length := by
  intro r hr
  have hnb : 1 ≤ n / s := (Nat.one_le_div_iff hs).mpr hsle
  have hmul : (n / s) * s ≤ n := Nat.div_mul_le_self _ _
  simp only [batchRanges, List.mem_map, List.mem_range] at hr
  obtain ⟨i, hi, hri⟩ := hr
  by_cases hlast : i = n / s - 1
  · rw [if_pos hlast] at hri
    subst hri
    simp only [pySlice, List.length_drop, hlen]
    have h1 : (i + 1) * s ≤ (n / s) * s := Nat.mul_le_mul_right s (by omega)
    have h2 : (i + 1) * s = i * s + s := Nat.succ_mul i s
    subst hlast
    omega
  · rw [if_neg hlast] at hri
    subst hri
    simp only [pySlice, List.length_drop, List.length_take, hlen]
    have h1 : (i + 1) * s ≤ (n / s) * s := Nat.mul_le_mul_right s (by omega)
    have h2 : (i + 1) * s = i * s + s := Nat.succ_mul i s
    omega

/-- C9: in sequential mode (`y_true` and `s` both supplied, with a fitted
instance, a nonempty stored pool, matching test lengths and `0 < s ≤
len(y_true)`), `EnbPI.predict` computes exactly the claim recurrence
`enbpiSeqSpec`: after each batch the residual pool becomes
`old_pool.drop s ++ (batch residuals of true values against the aggregated
LOO predictions)`, and the quantile used for the next batch is computed from
exactly that updated pool. -/
theorem enbpiPredict_sliding_window (X : Type) (m : EnbPI X) (bp : ℕ → X → ℚ)
    (Xtest : List X) (alpha : ℚ) (y : List ℚ) (s : ℕ)
    (hbp : m.bootPredictors = some bp) (hres : m.residuals ≠ [])
    (hlen : Xtest.length = y.length) (hs : 0 < s) (hsle : s ≤ y.length) :
    (EnbPI.predict m Xtest alpha (some y) (some s)).2 =
      enbpiSeqSpec m bp alpha s
        ((batchRanges Xtest.length (some y.length) (some s)).1.map
          (fun r => (pySlice Xtest r.1 r.2, pySlice y r.1 r.2)))
        m.residuals := by
  obtain ⟨q0, hq0⟩ := npQuantileLinear_ok (1 - alpha) hres
  have hbatches :
      ((batchRanges Xtest.length ((some y).map List.length) (some s)).1.map
        (fun r => (pySlice Xtest r.1 r.2, (some y).map (fun yv => pySlice yv r.1 r.2)))) =
      (((batchRanges Xtest.length (some y.length) (some s)).1.map
        (fun r => (pySlice Xtest r.1 r.2, pySlice y r.1 r.2))).map
          (fun p => (p.1, some p.2))) := by
    rw [List.map_map]
    rfl
  have hne : ∀ p ∈ ((batchRanges Xtest.length (some y.length) (some s)).1.map
      (fun r => (pySlice Xtest r.1 r.2, pySlice y r.1 r.2))),
      mad (enbpiYPredBatch m bp p.1) p.2 ≠ [] := by
    intro p hp
    obtain ⟨r, hr, hrp⟩ := List.mem_map.mp hp
    subst hrp
    have h1 := batch_slice_length Xtest Xtest.length y.length s hlen hs hsle r hr
    have h2 := batch_slice_length y Xtest.length y.length s rfl hs hsle r hr
    intro hc
    dsimp only at hc
    rcases List.zipWith_eq_nil_iff.mp hc with h3 | h3
    · have := enbpiYPredBatch_length m bp (pySlice Xtest r.1 r.2)
      rw [h3] at this
      simp only [List.length_nil] at this
      omega
    · rw [h3] at h2
      simp at h2
  rw [EnbPI.predict, hq0, hbp]
  have hs2 : (batchRanges Xtest.length ((some y).map List.length) (some s)).2 = s := by
    simp [batchRanges]
  rw [hs2, hbatches]
  rw [enbpiLoop_eq_seqSpec m bp alpha s _ hne m.residuals q0 ([], [], []) hq0]
  cases hspec : enbpiSeqSpec m bp alpha s
      ((batchRanges Xtest.length (some y.length) (some s)).1.map
        (fun r => (pySlice Xtest r.1 r.2, pySlice y r.1 r.2))) m.residuals with
  | error e => simp [Except.map]
  | ok out => simp [Except.map]

/-- Witness for C9 at a concrete two-sample sequential run with `s = 1`. -/
theorem enbpiPredict_sliding_window_witness :
    unitEnbPI.bootPredictors = some (fun _ _ => 0) ∧
    unitEnbPI.residuals ≠ [] ∧
    ([(), ()] : List Unit).length = [(1 : ℚ), 2].length ∧
    0 < 1 ∧ 1 ≤ [(1 : ℚ), 2].length ∧
    (EnbPI.predict unitEnbPI [(), ()] (1 / 2) (some [1, 2]) (some 1)).2 =
      enbpiSeqSpec unitEnbPI (fun _ _ => 0) (1 / 2) 1
        ((batchRanges ([(), ()] : List Unit).length (some [(1 : ℚ), 2].length) (some 1)).1.map
          (fun r => (pySlice [(), ()] r.1 r.2, pySlice [(1 : ℚ), 2] r.1 r.2)))
        unitEnbPI.residuals := by
  refine ⟨rfl, by simp [unitEnbPI], rfl, by decide, by decide, ?_⟩
  exact enbpiPredict_sliding_window Unit unitEnbPI (fun _ _ => 0) [(), ()] (1 / 2) [1, 2] 1
    rfl (by simp [unitEnbPI]) rfl (by decide) (by decide)

/-- C10: `EnbPI.predict` never mutates the fitted state - the instance after
the call is the very instance passed in (residual pool, OOB matrix and
bootstrap predictors included, since the sliding window works on a local
copy), and a repeated call with identical arguments returns an identical
result. -/
theorem enbpiPredict_no_mutation (X : Type) (m : EnbPI X) (Xtest : List X) (alpha : ℚ)
    (yTrue : Option (List ℚ)) (s? : Option ℕ) :
    (EnbPI.predict m Xtest alpha yTrue s?).1 = m ∧
    (EnbPI.predict (EnbPI.predict m Xtest alpha yTrue s?).1 Xtest alpha yTrue s?).2 =
      (EnbPI.predict m Xtest alpha yTrue s?).2 := by
  have hstate : (EnbPI.predict m Xtest alpha yTrue s?).1 = m := by
    rw [EnbPI.predict]
    cases hq : npQuantileLinear m.residuals (1 - alpha) with
    | error e => rfl
    | ok q0 =>
      cases hbp : m.bootPredictors with
      | none => rfl
      | some bp => exact enbpiLoop_state m bp alpha _ _ _ _ _
  exact ⟨hstate, by rw [hstate]⟩

end Puncc
